import Mathlib

/-!
Verification development for the monte-carlo-option-pricing-lab repository.

Part 1 embeds the repository's actual source files (three package
`__init__.py` files) as data, together with a small model of the Python
module loader, and proves the claims about the scaffolding itself.

Part 2 models the simulation/estimation core described by the
specification.  The repository contains no implementation of that core
(only documentation stubs), so every definition in Part 2 is modelled
from the specification text, as indicated by its doc comment.
-/

namespace MCLab

/-! ## Part 1: embedding of the source files -/

/-- Values assigned at module top level in the source files. -/
inductive PyValue where
  | str (s : String)
  | strList (l : List String)
  deriving DecidableEq

/-- Top-level statements occurring in the repository's Python modules.
The `defCallable` constructor stands for a `def` or `class` statement
defining a callable; it is included so that the absence of any defined
callable is expressible (no statement of the source files uses it). -/
inductive PyStmt where
  | moduleDoc (text : String)
  | assign (name : String) (v : PyValue)
  | fromPkgImport (sub : String)
  | defCallable (name : String)
  deriving DecidableEq

/-- Transcription of `src/src/__init__.py`: module docstring, metadata
assignments, six relative imports, and `__all__`. -/
def srcInitBody : List PyStmt :=
  [ .moduleDoc ("Monte Carlo Option Pricing Lab"),
    .assign ("__version__") (.str ("0.1.0")),
    .assign ("__author__") (.str ("Lorenzo Martínez Malvar")),
    .assign ("__email__") (.str ("lorenlorenloren@gmail.com")),
    .fromPkgImport ("pricing"),
    .fromPkgImport ("models"),
    .fromPkgImport ("variance_reduction"),
    .fromPkgImport ("portfolio"),
    .fromPkgImport ("data"),
    .fromPkgImport ("utils"),
    .assign ("__all__") (.strList
      ["pricing", "models", "variance_reduction", "portfolio", "data", "utils"]) ]

/-- Transcription of `src/src/models/__init__.py`: a docstring and an
empty `__all__`. -/
def modelsInitBody : List PyStmt :=
  [ .moduleDoc ("Stochastic models for option pricing."),
    .assign ("__all__") (.strList []) ]

/-- Transcription of `src/src/pricing/__init__.py`: a docstring, five
relative imports, and `__all__`. -/
def pricingInitBody : List PyStmt :=
  [ .moduleDoc ("Option pricing engines module."),
    .fromPkgImport ("european"),
    .fromPkgImport ("american"),
    .fromPkgImport ("exotic"),
    .fromPkgImport ("engine"),
    .fromPkgImport ("greeks"),
    .assign ("__all__") (.strList
      ["european", "american", "exotic", "engine", "greeks"]) ]

/-- The modules present in the source tree, with their bodies. -/
def sourceModules : List (String × List PyStmt) :=
  [("src", srcInitBody), ("src.models", modelsInitBody), ("src.pricing", pricingInitBody)]

/-- The dotted names of the modules that actually exist in the tree. -/
def sourceTree : List String := ["src", "src.models", "src.pricing"]

/-- Body of a module in the tree (empty list for absent modules). -/
def moduleBody (n : String) : List PyStmt :=
  if n = "src" then srcInitBody
  else if n = "src.models" then modelsInitBody
  else if n = "src.pricing" then pricingInitBody
  else []

/-- Whether a statement defines a callable. -/
def isCallableDef : PyStmt → Bool
  | .defCallable _ => true
  | _ => false

/-- Whether a statement is pure scaffolding: a docstring, a metadata
assignment, or an import. -/
def isScaffolding : PyStmt → Bool
  | .moduleDoc _ => true
  | .assign _ _ => true
  | .fromPkgImport _ => true
  | .defCallable _ => false

/-- The value assigned to `__all__` in a module body, if any. -/
def dunderAll : List PyStmt → Option PyValue
  | [] => none
  | .assign n v :: rest => if n = "__all__" then some v else dunderAll rest
  | _ :: rest => dunderAll rest

/-- Errors of the modelled import mechanism. -/
inductive PyImportError where
  | moduleNotFound (missing : String)
  deriving DecidableEq

/-- Modelled Python import: importing a module that is not in the source
tree raises `ModuleNotFoundError`; importing a present module executes
its body in order, where each `from . import sub` recursively imports the
submodule and propagates its failure.  The `fuel` argument bounds the
recursion depth; exhausted fuel succeeds vacuously, so an error at any
fuel reflects a genuine missing module. -/
def runImport : ℕ → String → Except PyImportError Unit
  | 0, _ => Except.ok ()
  | fuel + 1, n =>
    if n ∈ sourceTree then
      (moduleBody n).foldl
        (fun acc s =>
          acc >>= fun _ =>
            match s with
            | .fromPkgImport sub => runImport fuel (n ++ "." ++ sub)
            | _ => Except.ok ())
        (Except.ok ())
    else Except.error (.moduleNotFound n)

/-- Whether an import outcome is a `ModuleNotFoundError`. -/
def isModuleNotFound : Except PyImportError Unit → Bool
  | .error (.moduleNotFound _) => true
  | .ok _ => false

/-! ## Part 2: the modelled simulation core

The repository ships no implementation of the core described by the
specification, so everything below is modelled from the specification
text (sections 3, 4, 5 and 7). -/

/-- Error taxonomy of the core, from specification section 7. -/
inductive PricingError where
  | invalidModelParameters
  | singularRegression
  | cancellationRequested
  deriving DecidableEq

/-- Modelled from the spec: the spec requires an explicit, owned random
stream seeded per pricing call, with deterministically derived per-path
sub-streams, but names no concrete generator; a 64-bit linear
congruential step stands in for it. -/
def lcg (n : ℕ) : ℕ := (6364136223846793005 * n + 1442695040888963407) % 2 ^ 64

/-- Stream cell index of a (path, step, asset) position, via the
injective pairing of naturals, so distinct positions read distinct
stream cells. -/
def cellIdx (path step asset : ℕ) : ℕ := Nat.pair (Nat.pair path step) asset

/-- Modelled from the spec: deterministic stand-in for a standard-normal
draw — the seeded stream value at cell (path, step, asset) mapped to a
rational in [-3, 3].  The spec properties at issue depend on determinism
and sub-stream structure, not on the normal distribution itself, which a
deterministic executable model cannot carry. -/
def normalDraw (seed path step asset : ℕ) : ℚ :=
  ((((lcg (lcg (seed + 1) + cellIdx path step asset)) % 2001 : ℤ) - 1000) * 3) / 1000

/-- Parameters of geometric Brownian motion (spec section 3), together
with the initial price S0 that the spec scenario fixes per pricing
call. -/
structure GBMParams where
  s0 : ℚ
  drift : ℚ
  volatility : ℚ
  deriving DecidableEq

/-- Parameters of Merton jump-diffusion (spec section 3). -/
structure MertonParams where
  s0 : ℚ
  drift : ℚ
  volatility : ℚ
  jumpIntensity : ℚ
  jumpMean : ℚ
  jumpStd : ℚ
  deriving DecidableEq

/-- Single-asset model variants. -/
inductive SingleAssetModel where
  | gbm (p : GBMParams)
  | merton (p : MertonParams)
  deriving DecidableEq

/-- Modelled from the spec: the stochastic-model variant — single-asset
GBM or jump-diffusion, or a multi-asset model with a correlation matrix
over per-asset sub-models. -/
inductive StochasticModel where
  | single (m : SingleAssetModel)
  | multiAsset (corr : List (List ℚ)) (subs : List SingleAssetModel)
  deriving DecidableEq

/-- Variance-reduction plan: independently toggleable techniques (spec
section 3).  The antithetic technique is the one the claims exercise;
stratification and the control variate are carried as data (the spec
applies the control-variate adjustment post-hoc in the engine). -/
structure VarianceReductionPlan where
  antithetic : Bool
  stratified : Bool
  controlVariate : Bool
  deriving DecidableEq

/-- Simulation configuration (spec section 3). -/
structure SimulationConfig where
  numPaths : ℤ
  numSteps : ℤ
  horizon : ℚ
  seed : ℕ
  plan : VarianceReductionPlan
  confidence : ℚ
  deriving DecidableEq

/-- Step size dt = T / num_steps (spec section 4.1). -/
def dtQ (cfg : SimulationConfig) : ℚ := cfg.horizon / (cfg.numSteps : ℚ)

/-- One Schur-complement step of the exact-arithmetic factorization
recursion on the correlation matrix. -/
def schurStep (a11 : ℚ) (r0t : List ℚ) (rest : List (List ℚ)) : List (List ℚ) :=
  rest.map (fun row =>
    match row with
    | [] => []
    | ci :: rowTail => List.zipWith (fun aij a0j => aij - ci * a0j / a11) rowTail r0t)

/-- Modelled from the spec: factorizability of the correlation matrix.
Over exact rationals a Cholesky factor exists precisely when every pivot
of the Schur-complement recursion is positive, which is the test
performed here. -/
def choleskyOk : List (List ℚ) → Bool
  | [] => true
  | [] :: _ => false
  | (a11 :: r0t) :: rest =>
    decide (0 < a11) && choleskyOk (schurStep a11 r0t rest)
termination_by m => m.length
decreasing_by simp [schurStep]

/-- Modelled from the spec: validity of a correlation matrix — square,
symmetric (checked, not assumed), and factorizable. -/
def corrOk (m : List (List ℚ)) : Bool :=
  m.all (fun r => r.length == m.length) && decide (m.transpose = m) && choleskyOk m

/-- Modelled from the spec: per-asset parameter validation (section 7
rejects non-positive volatility). -/
def singleModelOk : SingleAssetModel → Bool
  | .gbm p => decide (0 < p.volatility)
  | .merton p => decide (0 < p.volatility)

/-- Modelled from the spec: model validation — valid per-asset
parameters and, for multi-asset models, a valid correlation matrix of
matching size. -/
def modelOk : StochasticModel → Bool
  | .single sm => singleModelOk sm
  | .multiAsset corr subs =>
    (corr.length == subs.length) && corrOk corr && subs.all singleModelOk

/-- Modelled from the spec: configuration validation — positive path
count, step count and step size (the fail-fast checks of sections 4.1
and 7). -/
def configOk (cfg : SimulationConfig) : Bool :=
  decide (0 < cfg.numPaths) && decide (0 < cfg.numSteps) && decide (0 < dtQ cfg)

/-- Modelled from the spec: the driving normal variate for (path, step,
asset) under the variance-reduction plan.  Antithetic plans make paths
2k and 2k+1 share the single draw of pair k, negated for the odd
member; otherwise each path owns its own sub-stream. -/
def drivingZ (cfg : SimulationConfig) (path step asset : ℕ) : ℚ :=
  if cfg.plan.antithetic then
    if path % 2 = 0 then normalDraw cfg.seed (path / 2) step asset
    else - normalDraw cfg.seed (path / 2) step asset
  else normalDraw cfg.seed path step asset

/-- Initial price of a single-asset model. -/
def s0Of : SingleAssetModel → ℚ
  | .gbm p => p.s0
  | .merton p => p.s0

/-- Real-valued step size. -/
noncomputable def dtR (cfg : SimulationConfig) : ℝ := ((dtQ cfg : ℚ) : ℝ)

/-- Square root of the step size, as it enters the diffusion term. -/
noncomputable def sqrtDt (cfg : SimulationConfig) : ℝ := Real.sqrt (dtR cfg)

/-- Modelled from the spec: deterministic stand-in for the per-step
Poisson jump count of the jump-diffusion model (mean jump_intensity·dt
in the spec; a count distribution is not representable in a
deterministic executable model). -/
def jumpCount (seed path step : ℕ) : ℕ :=
  (lcg (lcg (seed + 2) + cellIdx path step 0)) % 3

/-- Modelled from the spec: log jump size draw j at (path, step) —
jump_mean + jump_std · Z on a dedicated sub-stream. -/
def jumpLogSize (p : MertonParams) (seed path step j : ℕ) : ℚ :=
  p.jumpMean + p.jumpStd * normalDraw (seed + 3) path step j

/-- Modelled from the spec: per-step log-price increment.  GBM:
(drift − 0.5·volatility²)·dt + volatility·√dt·Z.  Jump-diffusion adds
the summed lognormal jump sizes of the per-step jump count. -/
noncomputable def logIncrement (sm : SingleAssetModel) (cfg : SimulationConfig)
    (path step : ℕ) (z : ℝ) : ℝ :=
  match sm with
  | .gbm p =>
    ((p.drift : ℝ) - (p.volatility : ℝ) ^ 2 / 2) * dtR cfg
      + (p.volatility : ℝ) * sqrtDt cfg * z
  | .merton p =>
    ((p.drift : ℝ) - (p.volatility : ℝ) ^ 2 / 2) * dtR cfg
      + (p.volatility : ℝ) * sqrtDt cfg * z
      + ((((List.range (jumpCount cfg.seed path step)).map
          (fun j => jumpLogSize p cfg.seed path step j)).sum : ℚ) : ℝ)

/-- Modelled from the spec: log price along a single-asset path, driven
by an arbitrary variate stream (used to state the antithetic mirroring
of whole paths). -/
noncomputable def logPriceZ (sm : SingleAssetModel) (cfg : SimulationConfig)
    (path : ℕ) (z : ℕ → ℚ) : ℕ → ℝ
  | 0 => Real.log ((s0Of sm : ℚ) : ℝ)
  | k + 1 => logPriceZ sm cfg path z k + logIncrement sm cfg path k ((z k : ℚ) : ℝ)

/-- Modelled from the spec: log price along a single-asset path, driven
by the plan-transformed stream of the configuration. -/
noncomputable def logPrice (sm : SingleAssetModel) (cfg : SimulationConfig)
    (path : ℕ) : ℕ → ℝ :=
  logPriceZ sm cfg path (fun k => drivingZ cfg path k 0)

/-- Modelled from the spec: action of the Cholesky factor of the
correlation matrix on a vector of independent normals, by the same
Schur-complement recursion as the factorizability check. -/
noncomputable def correlate : List (List ℚ) → List ℝ → List ℝ
  | [], _ => []
  | [] :: _, _ => []
  | (a11 :: r0t) :: rest, z =>
    match z with
    | [] => []
    | z0 :: zt =>
      let s : ℝ := Real.sqrt ((a11 : ℚ) : ℝ)
      let heads : List ℚ := rest.map (fun row => row.headD 0)
      let tail := correlate (schurStep a11 r0t rest) zt
      s * z0 :: List.zipWith (fun ci yi => ((ci : ℚ) : ℝ) / s * z0 + yi) heads tail
termination_by m _ => m.length
decreasing_by simp [schurStep]

/-- Vector of independent driving variates for one multi-asset step. -/
noncomputable def zVecR (cfg : SimulationConfig) (path step n : ℕ) : List ℝ :=
  (List.range n).map (fun a => ((drivingZ cfg path step a : ℚ) : ℝ))

/-- Modelled from the spec: multi-asset log prices at a step, evolving
each sub-model with the correlated normal vector. -/
noncomputable def multiLogPrices (corr : List (List ℚ)) (subs : List SingleAssetModel)
    (cfg : SimulationConfig) (path : ℕ) : ℕ → List ℝ
  | 0 => subs.map (fun sm => Real.log ((s0Of sm : ℚ) : ℝ))
  | k + 1 =>
    List.zipWith (fun pz z => pz.1 + logIncrement pz.2 cfg path k z)
      ((multiLogPrices corr subs cfg path k).zip subs)
      (correlate corr (zVecR cfg path k subs.length))

/-- Modelled from the spec: the vector of asset prices of one path at
one step (exponential of the log prices). -/
noncomputable def statePrices (m : StochasticModel) (cfg : SimulationConfig)
    (path step : ℕ) : List ℝ :=
  match m with
  | .single sm => [Real.exp (logPrice sm cfg path step)]
  | .multiAsset corr subs => (multiLogPrices corr subs cfg path step).map Real.exp

/-- Ordered sequence of trajectories, each an ordered sequence of
asset-price vectors (spec section 3). -/
structure PathSet where
  paths : List (List (List ℝ))

/-- Number of simulated paths. -/
def nPathsOf (cfg : SimulationConfig) : ℕ := cfg.numPaths.toNat

/-- Number of time steps. -/
def nStepsOf (cfg : SimulationConfig) : ℕ := cfg.numSteps.toNat

/-- Modelled from the spec: PathGenerator.generate — validate the model
and configuration first, failing fast with InvalidModelParameters before
any simulation work, then produce the deterministic PathSet: for each
path index, the asset-price vectors at steps 1..num_steps. -/
noncomputable def generate (m : StochasticModel) (cfg : SimulationConfig) :
    Except PricingError PathSet :=
  if modelOk m && configOk cfg then
    Except.ok ⟨(List.range (nPathsOf cfg)).map (fun i =>
      (List.range (nStepsOf cfg)).map (fun k => statePrices m cfg i (k + 1)))⟩
  else Except.error PricingError.invalidModelParameters

/-- Call or put. -/
inductive OptionKind where
  | call
  | put
  deriving DecidableEq

/-- Payoff specification variants (spec section 3). -/
inductive PayoffSpec where
  | european (strike : ℚ) (kind : OptionKind)
  | asian (window : ℕ) (strike : ℚ)
  | barrier (level : ℚ) (up : Bool) (rebate : ℚ)
  | basket (weights : List ℚ) (strike : ℚ)
  | american (strike : ℚ) (kind : OptionKind)
  deriving DecidableEq

/-- Immediate exercise payoff of a vanilla option. -/
def exercisePayoff {α : Type} [LinearOrderedField α] (strike : α) :
    OptionKind → α → α
  | .call, s => max (s - strike) 0
  | .put, s => max (strike - s) 0

/-- Modelled from the spec: PayoffEvaluator.evaluate — the discounted
cash flow of one path under a payoff specification, a pure function.
`df` is the total discount factor to expiry; the path is a step-indexed
list of asset-price vectors.  European: discounted terminal payoff.
Asian: discounted payoff of the arithmetic average of the last `window`
observations.  Barrier: discounted terminal price when the barrier was
never crossed in the given direction, else the rebate (the spec names
no strike for this variant).  Basket: weighted sum of terminal asset
prices against the strike.  American: the naive terminal-only
evaluation that the exercise-boundary estimator replaces. -/
def evaluate {α : Type} [LinearOrderedField α] (df : α) (path : List (List α)) :
    PayoffSpec → α
  | .european strike kind =>
    df * exercisePayoff ((strike : ℚ) : α) kind ((path.getLastD []).headD 0)
  | .asian window strike =>
    let obs := ((path.map (fun v => v.headD 0)).reverse.take window).reverse
    df * max (obs.sum / (obs.length : α) - ((strike : ℚ) : α)) 0
  | .barrier level up rebate =>
    let prices := path.map (fun v => v.headD 0)
    let crossed :=
      if up then prices.any (fun s => decide (((level : ℚ) : α) ≤ s))
      else prices.any (fun s => decide (s ≤ ((level : ℚ) : α)))
    if crossed then df * ((rebate : ℚ) : α) else df * (path.getLastD []).headD 0
  | .basket weights strike =>
    let basket :=
      (List.zipWith (fun w s => ((w : ℚ) : α) * s) weights (path.getLastD [])).sum
    df * max (basket - ((strike : ℚ) : α)) 0
  | .american strike kind =>
    df * exercisePayoff ((strike : ℚ) : α) kind ((path.getLastD []).headD 0)

/-- Size of the fixed polynomial regression basis 1, s, s², s³ (spec
section 4.3). -/
def basisSize : ℕ := 4

/-- Modelled from the spec: the continuation-value function of one
backward-induction step.  The regression is restricted to the
in-the-money paths; when fewer such paths exist than basis terms the
regression is skipped and the continuation value is zero (the
documented SingularRegression fallback).  The least-squares fit enters
as the parameter `fit`, mapping the regression points (state, realized
discounted future cash flow) to a fitted function; the spec fixes a
cubic polynomial basis for it, and the claims at issue constrain the
induction structure, proved here for every fit. -/
def continuationOf {α : Type} [LinearOrderedField α]
    (fit : List (α × α) → α → α) (d : α) (exercise : α → α)
    (prices cash : List α) : α → α :=
  let itm := (prices.zip cash).filter (fun pc => decide (0 < exercise pc.1))
  if itm.length < basisSize then fun _ => 0
  else fit (itm.map (fun pc => (pc.1, d * pc.2)))

/-- Modelled from the spec: one backward-induction step of the
exercise-boundary estimator.  Each in-the-money path whose immediate
exercise payoff exceeds the fitted continuation value takes the
undiscounted exercise payoff as its cash flow, discarding its future
cash flow; every other path carries its future cash flow forward,
discounted one step. -/
def lsmStep {α : Type} [LinearOrderedField α]
    (fit : List (α × α) → α → α) (d : α) (exercise : α → α)
    (prices cash : List α) : List α :=
  let cont := continuationOf fit d exercise prices cash
  (prices.zip cash).map (fun pc =>
    if 0 < exercise pc.1 ∧ cont pc.1 < exercise pc.1 then exercise pc.1
    else d * pc.2)

/-- Modelled from the spec: backward induction from the second-to-last
step down to the first.  `cols` lists the per-path price columns of
steps 1..T−1 in forward order; `cash` is the cash-flow vector at the
final step. -/
def lsmBackward {α : Type} [LinearOrderedField α]
    (fit : List (α × α) → α → α) (d : α) (exercise : α → α) :
    List (List α) → List α → List α
  | [], cash => cash
  | c :: cs, cash => lsmStep fit d exercise c (lsmBackward fit d exercise cs cash)

/-- Modelled from the spec: per-path optimal discounted cash flows of
the exercise-boundary estimator — cash flow at the final step
initialized to the terminal payoff of every path, then backward
induction through the earlier price columns. -/
def americanCashflows {α : Type} [LinearOrderedField α]
    (fit : List (α × α) → α → α) (d : α) (exercise : α → α)
    (cols : List (List α)) (colT : List α) : List α :=
  lsmBackward fit d exercise cols (colT.map exercise)

/-- Mean of a list (zero for the empty list). -/
def listMean {α : Type} [LinearOrderedField α] (xs : List α) : α :=
  xs.sum / (xs.length : α)

/-- Modelled from the spec: the American point estimate — the step-1
cash flows averaged and discounted to time 0 exactly as in the
non-American case. -/
def americanEstimate {α : Type} [LinearOrderedField α]
    (fit : List (α × α) → α → α) (d : α) (exercise : α → α)
    (cols : List (List α)) (colT : List α) : α :=
  d * listMean (americanCashflows fit d exercise cols colT)

/-- Modelled from the spec: the European point estimate on the same
paths — the average of the fully discounted terminal payoffs (the total
step count is cols.length + 1). -/
def europeanEstimate {α : Type} [LinearOrderedField α]
    (d : α) (exercise : α → α) (cols : List (List α)) (colT : List α) : α :=
  d ^ (cols.length + 1) * listMean (colT.map exercise)

/-- Immutable pricing result (spec section 3): point estimate, standard
error, confidence-interval bounds, effective sample count. -/
@[ext]
structure PricingResult where
  estimate : ℝ
  stderr : ℝ
  ciLow : ℝ
  ciHigh : ℝ
  effPaths : ℕ

/-- Modelled from the spec: assemble a result from an effective count,
a point estimate, and the centered second moment M2 = Σ(x−mean)².
Standard error = sample standard deviation / √n; the confidence bounds
use the normal approximation with quantile `z` (the inverse normal CDF
has no closed form, so the quantile enters as a parameter). -/
noncomputable def resultFrom (z : ℝ) (n : ℕ) (est m2 : ℝ) : PricingResult :=
  { estimate := est
    stderr := Real.sqrt (m2 / ((n : ℝ) - 1)) / Real.sqrt (n : ℝ)
    ciLow := est - z * (Real.sqrt (m2 / ((n : ℝ) - 1)) / Real.sqrt (n : ℝ))
    ciHigh := est + z * (Real.sqrt (m2 / ((n : ℝ) - 1)) / Real.sqrt (n : ℝ))
    effPaths := n }

/-- Centered second moment recovered from a result. -/
noncomputable def m2Of (r : PricingResult) : ℝ :=
  r.stderr ^ 2 * (r.effPaths : ℝ) * ((r.effPaths : ℝ) - 1)

/-- Modelled from the spec: ResultAggregator.merge of two batches —
pooled mean weighted by the effective path counts, and pooled standard
error through the exact combined-sample second moment, so that merging
batch results reproduces the statistics of the combined sample (the
reproducibility the spec demands across worker counts). -/
noncomputable def merge (z : ℝ) (a b : PricingResult) : PricingResult :=
  let n := a.effPaths + b.effPaths
  let est := ((a.effPaths : ℝ) * a.estimate + (b.effPaths : ℝ) * b.estimate) / (n : ℝ)
  let m2 := m2Of a + m2Of b +
    (b.estimate - a.estimate) ^ 2 * (a.effPaths : ℝ) * (b.effPaths : ℝ) / (n : ℝ)
  resultFrom z n est m2

/-- Result of a raw sample summarized by (count, Σx, Σx²). -/
noncomputable def resultOfStats (z : ℝ) (n : ℕ) (s q : ℝ) : PricingResult :=
  resultFrom z n (s / (n : ℝ)) (q - s ^ 2 / (n : ℝ))

/-- Result computed from the observations indexed by a finite set. -/
noncomputable def resultOverSet (z : ℝ) (f : ℕ → ℝ) (s : Finset ℕ) : PricingResult :=
  resultOfStats z s.card (∑ i ∈ s, f i) (∑ i ∈ s, f i ^ 2)

/-- Modelled from the spec: fold of ResultAggregator.merge over an
ordered batch list, from the empty batch. -/
noncomputable def mergeAll (z : ℝ) (rs : List PricingResult) : PricingResult :=
  rs.foldl (merge z) (resultFrom z 0 0 0)

/-- Drift of a single-asset model. -/
def singleDrift : SingleAssetModel → ℚ
  | .gbm p => p.drift
  | .merton p => p.drift

/-- Discount rate of a model: the drift of its first asset (risk-neutral
pricing; the spec fixes no separate rate input). -/
def driftOf : StochasticModel → ℚ
  | .single sm => singleDrift sm
  | .multiAsset _ subs => (subs.map singleDrift).headD 0

/-- Per-step discount factor exp(−r·dt). -/
noncomputable def stepDisc (m : StochasticModel) (cfg : SimulationConfig) : ℝ :=
  Real.exp (-((driftOf m : ℚ) : ℝ) * dtR cfg)

/-- First-asset price of a stored path at stored step index k (0-based;
simulation step k+1). -/
noncomputable def priceAt (p : List (List ℝ)) (k : ℕ) : ℝ := (p.getD k []).headD 0

/-- Intermediate first-asset price columns (steps 1..T−1) of a path set
with T steps. -/
noncomputable def innerCols (ps : PathSet) (T : ℕ) : List (List ℝ) :=
  (List.range (T - 1)).map (fun k => ps.paths.map (fun p => priceAt p k))

/-- Terminal first-asset price column. -/
noncomputable def termCol (ps : PathSet) (T : ℕ) : List ℝ :=
  ps.paths.map (fun p => priceAt p (T - 1))

/-- Modelled from the spec: the American pricing pipeline — generate,
run the exercise-boundary estimator on the price columns, then
aggregate.  Only InvalidModelParameters can surface; the
singular-regression condition is handled inside the estimator. -/
noncomputable def priceAmerican (z : ℝ) (fit : List (ℝ × ℝ) → ℝ → ℝ)
    (m : StochasticModel) (cfg : SimulationConfig) (strike : ℚ)
    (kind : OptionKind) : Except PricingError PricingResult :=
  (generate m cfg).map (fun ps =>
    let T := nStepsOf cfg
    let d := stepDisc m cfg
    let ex := exercisePayoff ((strike : ℚ) : ℝ) kind
    let cf := (americanCashflows fit d ex (innerCols ps T) (termCol ps T)).map
      (fun c => d * c)
    resultOfStats z cf.length cf.sum ((cf.map (fun x => x ^ 2)).sum))

/-- Modelled from the spec: the European pricing pipeline — generate,
evaluate the discounted terminal payoffs, then aggregate. -/
noncomputable def priceEuropean (z : ℝ) (m : StochasticModel)
    (cfg : SimulationConfig) (strike : ℚ) (kind : OptionKind) :
    Except PricingError PricingResult :=
  (generate m cfg).map (fun ps =>
    let df := stepDisc m cfg ^ nStepsOf cfg
    let cf := ps.paths.map (fun p => evaluate df p (PayoffSpec.european strike kind))
    resultOfStats z cf.length cf.sum ((cf.map (fun x => x ^ 2)).sum))

/-- Whether a pricing outcome succeeded. -/
def isOkResult {ε β : Type} : Except ε β → Bool
  | .ok _ => true
  | .error _ => false

/-- Point estimate of a pricing outcome (zero on failure). -/
def estimateOf : Except PricingError PricingResult → ℝ
  | .ok r => r.estimate
  | .error _ => 0

/-- Modelled from the spec: cash flow of path i under a payoff
specification (the path regenerated from its deterministic
sub-stream). -/
noncomputable def pathCF (m : StochasticModel) (cfg : SimulationConfig)
    (spec : PayoffSpec) (i : ℕ) : ℝ :=
  evaluate (stepDisc m cfg ^ nStepsOf cfg)
    ((List.range (nStepsOf cfg)).map (fun k => statePrices m cfg i (k + 1))) spec

/-- Modelled from the spec: one effectively independent observation —
under antithetic pairing observation j averages mirrored paths 2j and
2j+1 (each pair counts once for variance purposes), else it is path j
itself. -/
noncomputable def obsCF (m : StochasticModel) (cfg : SimulationConfig)
    (spec : PayoffSpec) (j : ℕ) : ℝ :=
  if cfg.plan.antithetic then
    (pathCF m cfg spec (2 * j) + pathCF m cfg spec (2 * j + 1)) / 2
  else pathCF m cfg spec j

/-- Effective observation count (spec section 4.4). -/
def obsCount (cfg : SimulationConfig) : ℕ :=
  if cfg.plan.antithetic then nPathsOf cfg / 2 else nPathsOf cfg

/-- Observation index set of worker w among W workers: worker w always
owns sub-stream w — the indices congruent to w mod W (spec
section 5). -/
def workerSet (N W w : ℕ) : Finset ℕ :=
  (Finset.range N).filter (fun i => i % W = w)

/-- Modelled from the spec: the parallel pricing pipeline with W
workers — worker w computes the local result of its deterministic
observation set, and ResultAggregator merges the local results after
all workers complete. -/
noncomputable def priceParallel (z : ℝ) (m : StochasticModel)
    (cfg : SimulationConfig) (spec : PayoffSpec) (W : ℕ) :
    Except PricingError PricingResult :=
  (generate m cfg).map (fun _ =>
    mergeAll z ((List.range W).map (fun w =>
      resultOverSet z (obsCF m cfg spec) (workerSet (obsCount cfg) W w))))

/-- Concrete valid configuration used by witnesses. -/
def cfgW : SimulationConfig := ⟨1, 2, 1, 0, ⟨false, false, false⟩, 95 / 100⟩

/-- Concrete antithetic configuration used by witnesses. -/
def cfgA : SimulationConfig := ⟨4, 2, 1, 0, ⟨true, false, false⟩, 95 / 100⟩

/-- Concrete invalid configuration (no paths) used by witnesses. -/
def cfgBad : SimulationConfig := ⟨0, 2, 1, 0, ⟨false, false, false⟩, 95 / 100⟩

/-- Concrete GBM parameters used by witnesses. -/
def gbmW : GBMParams := ⟨100, 1 / 20, 1 / 5⟩

/-- GBM parameters with a strongly negative drift, under which the
forced-exercise fallback destroys value. -/
def gbmC : GBMParams := ⟨1, -10, 1⟩

/-- Configuration with one path and two steps of size dt = 4. -/
def cfgC : SimulationConfig := ⟨1, 2, 8, 0, ⟨false, false, false⟩, 95 / 100⟩

/-- A least-squares fit placeholder (never consulted on the
counterexample, whose in-the-money count is below the basis size). -/
def fitC : List (ℝ × ℝ) → ℝ → ℝ := fun _ _ => 0

/-- First driving draw of the counterexample path. -/
noncomputable def z1C : ℝ := ((normalDraw 0 0 0 0 : ℚ) : ℝ)

/-- Second driving draw of the counterexample path. -/
noncomputable def z2C : ℝ := ((normalDraw 0 0 1 0 : ℚ) : ℝ)

/-- Counterexample asset price after one step. -/
noncomputable def s1C : ℝ := Real.exp (-42 + 2 * z1C)

/-- Counterexample asset price after two steps. -/
noncomputable def s2C : ℝ := Real.exp ((-42 + 2 * z1C) + (-42 + 2 * z2C))

/-- The path set generated by the counterexample inputs. -/
noncomputable def psC : PathSet :=
  ⟨[[statePrices (StochasticModel.single (.gbm gbmC)) cfgC 0 1,
     statePrices (StochasticModel.single (.gbm gbmC)) cfgC 0 2]]⟩

end MCLab

/-! ## Claims about the scaffolding -/

namespace MCLab

/-- C1: the source repository contains no implemented simulation or
pricing logic.  Every statement of every module under `src` is a
docstring, a metadata assignment, or an import; in particular no module
defines a callable named `generate`, `evaluate`, `price`, `greeks`,
`merge`, or anything else; and the models package exports an empty
`__all__`. -/
theorem no_logic_in_source :
    (sourceModules.all (fun m => m.2.all isScaffolding)) = true ∧
    (∀ name : String,
      PyStmt.defCallable name ∉ srcInitBody ∧
      PyStmt.defCallable name ∉ modelsInitBody ∧
      PyStmt.defCallable name ∉ pricingInitBody) ∧
    dunderAll modelsInitBody = some (.strList []) := by
  refine ⟨by decide, fun name => ?_, by decide⟩
  refine ⟨?_, ?_, ?_⟩ <;>
    simp [srcInitBody, modelsInitBody, pricingInitBody]

/-- C2: importing the public package fails.  Importing `src` yields a
`ModuleNotFoundError` (its `__init__` imports, besides `pricing` and
`models`, the submodules `variance_reduction`, `portfolio`, `data` and
`utils`, none of which exist in the tree), and importing `src.pricing`
alone likewise yields a `ModuleNotFoundError` (it imports `european`,
`american`, `exotic`, `engine` and `greeks`, none of which exist). -/
theorem import_package_fails :
    isModuleNotFound (runImport 9 ("src")) = true ∧
    (["variance_reduction", "portfolio", "data", "utils"].all
      (fun sub =>
        (srcInitBody.contains (.fromPkgImport sub)) &&
        !(sourceTree.contains ("src." ++ sub)))) = true ∧
    isModuleNotFound (runImport 9 ("src.pricing")) = true ∧
    (["european", "american", "exotic", "engine", "greeks"].all
      (fun sub =>
        (pricingInitBody.contains (.fromPkgImport sub)) &&
        !(sourceTree.contains ("src.pricing." ++ sub)))) = true := by
  refine ⟨by decide, by decide, by decide, by decide⟩

end MCLab

/-! ## Claims about the modelled core -/

namespace MCLab

/-- Helper: a generation outcome is either a path set or the
parameter-validation error. -/
theorem generate_error_invalid {m : StochasticModel} {cfg : SimulationConfig}
    {e : PricingError} (h : generate m cfg = Except.error e) :
    e = PricingError.invalidModelParameters := by
  unfold generate at h
  by_cases hb : (modelOk m && configOk cfg) = true
  · simp [hb] at h
  · simp [hb] at h
    exact h.symm

/-- C4: for every input with num_paths ≤ 0, num_steps ≤ 0, dt ≤ 0, or a
non-factorizable correlation matrix, path generation fails with
InvalidModelParameters, and it fails fast: no path set — not even a
partial one — is produced. -/
theorem generate_validation_fails_fast (m : StochasticModel) (cfg : SimulationConfig)
    (h : cfg.numPaths ≤ 0 ∨ cfg.numSteps ≤ 0 ∨ dtQ cfg ≤ 0 ∨
      ∃ corr subs, m = StochasticModel.multiAsset corr subs ∧ choleskyOk corr = false) :
    generate m cfg = Except.error PricingError.invalidModelParameters ∧
    ∀ ps : PathSet, generate m cfg ≠ Except.ok ps := by
  have hbad : (modelOk m && configOk cfg) = false := by
    rcases h with h | h | h | ⟨corr, subs, rfl, hc⟩
    · have hnp : ¬ (0 : ℤ) < cfg.numPaths := not_lt.mpr h
      simp [configOk, hnp]
    · have hns : ¬ (0 : ℤ) < cfg.numSteps := not_lt.mpr h
      simp [configOk, hns]
    · have hdt : ¬ (0 : ℚ) < dtQ cfg := not_lt.mpr h
      simp [configOk, hdt]
    · simp [modelOk, corrOk, hc]
  refine ⟨?_, fun ps => ?_⟩ <;> simp [generate, hbad]

/-- Witness for C4 at a concrete invalid input: zero paths requested. -/
theorem generate_validation_fails_fast_witness :
    cfgBad.numPaths ≤ 0 ∧
    generate (StochasticModel.single (.gbm gbmW)) cfgBad =
      Except.error PricingError.invalidModelParameters :=
  ⟨by decide,
    (generate_validation_fails_fast _ _ (Or.inl (by decide))).1⟩

/-- C7: for geometric Brownian motion the generator uses step size
dt = T / num_steps and, at every step, a log-price increment equal to
(drift − 0.5·volatility²)·dt + volatility·√dt·Z, Z being the driving
standard-normal draw of that path and step. -/
theorem gbm_discretization (p : GBMParams) (cfg : SimulationConfig) (path k : ℕ)
    (hk : k < nStepsOf cfg) :
    dtQ cfg = cfg.horizon / (cfg.numSteps : ℚ) ∧
    logPrice (SingleAssetModel.gbm p) cfg path (k + 1)
        - logPrice (SingleAssetModel.gbm p) cfg path k =
      (((p.drift : ℚ) : ℝ) - (1 / 2) * ((p.volatility : ℚ) : ℝ) ^ 2) * dtR cfg
        + ((p.volatility : ℚ) : ℝ) * Real.sqrt (dtR cfg)
          * ((drivingZ cfg path k 0 : ℚ) : ℝ) := by
  refine ⟨rfl, ?_⟩
  simp only [logPrice, logPriceZ, logIncrement, sqrtDt]
  ring

/-- Witness for C7 at a concrete configuration and step. -/
theorem gbm_discretization_witness :
    0 < nStepsOf cfgW ∧
    dtQ cfgW = cfgW.horizon / (cfgW.numSteps : ℚ) :=
  ⟨by decide, (gbm_discretization gbmW cfgW 0 0 (by decide)).1⟩

/-- C9: under an antithetic plan, paths are stored in mirrored pairs —
for every k, path 2k is driven by the single normal draw Z of pair k
and path 2k+1 by −Z at every step and asset, the whole simulated paths
being functions of that one shared sub-stream; and distinct positions
(pair, step, asset) read disjoint cells of the seeded stream, the
model's rendering of the independence of distinct pairs. -/
theorem antithetic_mirrored_pairs (sm : SingleAssetModel) (cfg : SimulationConfig)
    (hp : cfg.plan.antithetic = true) (k step asset : ℕ) :
    drivingZ cfg (2 * k) step asset = normalDraw cfg.seed k step asset ∧
    drivingZ cfg (2 * k + 1) step asset = - normalDraw cfg.seed k step asset ∧
    (∀ t, logPrice sm cfg (2 * k) t
        = logPriceZ sm cfg (2 * k) (fun s => normalDraw cfg.seed k s 0) t) ∧
    (∀ t, logPrice sm cfg (2 * k + 1) t
        = logPriceZ sm cfg (2 * k + 1) (fun s => - normalDraw cfg.seed k s 0) t) ∧
    Function.Injective (fun pos : ℕ × ℕ × ℕ => cellIdx pos.1 pos.2.1 pos.2.2) := by
  have h1 : (2 * k) % 2 = 0 := by omega
  have h2 : 2 * k / 2 = k := by omega
  have h3 : (2 * k + 1) % 2 = 1 := by omega
  have h4 : (2 * k + 1) / 2 = k := by omega
  have heven : ∀ s a, drivingZ cfg (2 * k) s a = normalDraw cfg.seed k s a := by
    intro s a
    simp [drivingZ, hp, h1, h2]
  have hodd : ∀ s a, drivingZ cfg (2 * k + 1) s a = - normalDraw cfg.seed k s a := by
    intro s a
    simp [drivingZ, hp, h3, h4]
  refine ⟨heven step asset, hodd step asset, ?_, ?_, ?_⟩
  · intro t
    have hz : (fun s => drivingZ cfg (2 * k) s 0)
        = fun s => normalDraw cfg.seed k s 0 := funext fun s => heven s 0
    rw [logPrice, hz]
  · intro t
    have hz : (fun s => drivingZ cfg (2 * k + 1) s 0)
        = fun s => - normalDraw cfg.seed k s 0 := funext fun s => hodd s 0
    rw [logPrice, hz]
  · rintro ⟨a, b, c⟩ ⟨d, e, f⟩ hcell
    simp only [cellIdx, Nat.pair_eq_pair] at hcell
    obtain ⟨⟨rfl, rfl⟩, rfl⟩ := hcell
    rfl

/-- Witness for C9 at a concrete antithetic configuration. -/
theorem antithetic_mirrored_pairs_witness :
    cfgA.plan.antithetic = true ∧
    drivingZ cfgA 0 0 0 = normalDraw cfgA.seed 0 0 0 :=
  ⟨by decide,
    (antithetic_mirrored_pairs (.gbm gbmW) cfgA (by decide) 0 0 0).1⟩

end MCLab

namespace MCLab

/-- Helper: elementwise description of one backward-induction step. -/
theorem lsmStep_getD {α : Type} [LinearOrderedField α]
    (fit : List (α × α) → α → α) (d : α) (ex : α → α)
    (c cash : List α) (hlen : cash.length = c.length) (i : ℕ) (hi : i < c.length) :
    (lsmStep fit d ex c cash).getD i 0 =
      if 0 < ex (c.getD i 0) ∧
          continuationOf fit d ex c cash (c.getD i 0) < ex (c.getD i 0)
        then ex (c.getD i 0) else d * cash.getD i 0 := by
  have hic : i < cash.length := by omega
  have hz : (c.zip cash)[i]? = some (c.getD i 0, cash.getD i 0) := by
    rw [List.getElem?_zip_eq_some]
    refine ⟨?_, ?_⟩
    · rw [List.getElem?_eq_getElem hi, List.getD_eq_getElem c 0 hi]
    · rw [List.getElem?_eq_getElem hic, List.getD_eq_getElem cash 0 hic]
  rw [lsmStep, List.getD_eq_getElem?_getD, List.getElem?_map, hz]
  rfl

/-- C5: the exercise-boundary estimator implements backward induction
exactly as specified.  Cash flow at the final step is the terminal
payoff of every path; each earlier step transforms the cash flows with
one lsmStep; and at such a step, path i's cash flow becomes the
undiscounted exercise payoff exactly when the path is in the money and
the payoff exceeds the regression-fitted continuation value — its
future cash flow then no longer contributes — while every other path,
in particular every out-of-the-money path, carries its future cash flow
forward discounted one step. -/
theorem lsm_matches_spec {α : Type} [LinearOrderedField α]
    (fit : List (α × α) → α → α) (d : α) (ex : α → α)
    (cols : List (List α)) (colT : List α) (c cash : List α)
    (hlen : cash.length = c.length) (i : ℕ) (hi : i < c.length) :
    americanCashflows fit d ex [] colT = colT.map ex ∧
    americanCashflows fit d ex (c :: cols) colT
      = lsmStep fit d ex c (americanCashflows fit d ex cols colT) ∧
    (lsmStep fit d ex c cash).getD i 0 =
      (if 0 < ex (c.getD i 0) ∧
          continuationOf fit d ex c cash (c.getD i 0) < ex (c.getD i 0)
        then ex (c.getD i 0) else d * cash.getD i 0) :=
  ⟨rfl, rfl, lsmStep_getD fit d ex c cash hlen i hi⟩

/-- Witness for C5 at concrete rational data. -/
theorem lsm_matches_spec_witness :
    ([(3 : ℚ)] : List ℚ).length = ([(2 : ℚ)] : List ℚ).length ∧
    0 < ([(2 : ℚ)] : List ℚ).length ∧
    americanCashflows (fun _ _ => (0 : ℚ)) 1 (exercisePayoff 1 .put) [] [(5 : ℚ)]
      = ([(5 : ℚ)] : List ℚ).map (exercisePayoff 1 .put) :=
  ⟨by decide, by decide,
    (lsm_matches_spec (fun _ _ => (0 : ℚ)) 1 (exercisePayoff 1 .put) []
      [(5 : ℚ)] [(2 : ℚ)] [(3 : ℚ)] (by decide) 0 (by decide)).1⟩

/-- C6: whenever the in-the-money paths at a step are fewer than the
basis size, the regression is skipped and the continuation value is
zero, forcing exercise on every in-the-money path; and the
singular-regression condition never surfaces as an error of the
American pricing pipeline. -/
theorem lsm_fallback_never_errors {α : Type} [LinearOrderedField α]
    (fit : List (α × α) → α → α) (d : α) (ex : α → α) (c cash : List α)
    (hfew : ((c.zip cash).filter (fun pc => decide (0 < ex pc.1))).length < basisSize) :
    continuationOf fit d ex c cash = (fun _ => 0) ∧
    (∀ i, i < c.length → cash.length = c.length → 0 < ex (c.getD i 0) →
      (lsmStep fit d ex c cash).getD i 0 = ex (c.getD i 0)) ∧
    (∀ z fitR m cfg strike kind,
      priceAmerican z fitR m cfg strike kind
        ≠ Except.error PricingError.singularRegression) := by
  have hcont : continuationOf fit d ex c cash = (fun _ => 0) := by
    rw [continuationOf]
    simp only [hfew, if_pos]
  refine ⟨hcont, ?_, ?_⟩
  · intro i hi hlen hitm
    have hc2 : (fun _ : α => (0 : α)) (c.getD i 0) < ex (c.getD i 0) := hitm
    rw [lsmStep_getD fit d ex c cash hlen i hi, hcont]
    exact if_pos ⟨hitm, hc2⟩
  · intro z fitR m cfg strike kind
    rw [priceAmerican]
    rcases hg : generate m cfg with e | ps
    · have he : e = PricingError.invalidModelParameters := generate_error_invalid hg
      subst he
      simp [Except.map]
    · simp [Except.map]

/-- Witness for C6: one in-the-money path, fewer than the four basis
terms, forces exercise at the immediate payoff. -/
theorem lsm_fallback_never_errors_witness :
    ((([(9 : ℚ)] : List ℚ).zip ([(10 : ℚ)] : List ℚ)).filter
      (fun pc => decide (0 < exercisePayoff (10 : ℚ) .put pc.1))).length < basisSize ∧
    continuationOf (fun _ _ => (7 : ℚ)) 1 (exercisePayoff (10 : ℚ) .put)
      [(9 : ℚ)] [(10 : ℚ)] = (fun _ => 0) :=
  ⟨by norm_num [exercisePayoff, basisSize],
    (lsm_fallback_never_errors (fun _ _ => (7 : ℚ)) 1 (exercisePayoff (10 : ℚ) .put)
      [(9 : ℚ)] [(10 : ℚ)] (by norm_num [exercisePayoff, basisSize])).1⟩

end MCLab

namespace MCLab

/-- Helper: resultFrom respects equality of its numeric arguments. -/
theorem resultFrom_congr (z : ℝ) {n1 n2 : ℕ} {e1 e2 m1 m2 : ℝ}
    (hn : n1 = n2) (he : e1 = e2) (hm : m1 = m2) :
    resultFrom z n1 e1 m1 = resultFrom z n2 e2 m2 := by
  subst hn
  subst he
  subst hm
  rfl

/-- Helper: the recovered second moment of an assembled result is the
assembled one, provided it is nonnegative and vanishes on degenerate
counts. -/
theorem m2Of_resultFrom (z : ℝ) (n : ℕ) (est m2 : ℝ) (h0 : 0 ≤ m2)
    (hdeg : n ≤ 1 → m2 = 0) :
    m2Of (resultFrom z n est m2) = m2 := by
  match n with
  | 0 =>
    rw [hdeg (by omega)]
    simp [m2Of, resultFrom]
  | 1 =>
    rw [hdeg (by omega)]
    simp [m2Of, resultFrom]
  | (k + 2) =>
    have h2 : (0 : ℝ) < ((k + 2 : ℕ) : ℝ) := by positivity
    have h1 : (0 : ℝ) < ((k + 2 : ℕ) : ℝ) - 1 := by push_cast; linarith [Nat.cast_nonneg (α := ℝ) k]
    simp only [m2Of, resultFrom]
    rw [div_pow, Real.sq_sqrt (div_nonneg h0 h1.le), Real.sq_sqrt h2.le]
    rw [div_div, div_mul_eq_mul_div, div_mul_eq_mul_div,
      div_eq_iff (ne_of_gt (mul_pos h1 h2))]
    ring

/-- Helper: the recovered second moment is never negative. -/
theorem m2Of_nonneg (r : PricingResult) : 0 ≤ m2Of r := by
  rw [m2Of]
  rcases Nat.eq_zero_or_pos r.effPaths with h | h
  · simp [h]
  · have h1 : (1 : ℝ) ≤ (r.effPaths : ℝ) := by exact_mod_cast h
    exact mul_nonneg (mul_nonneg (sq_nonneg _) (Nat.cast_nonneg _)) (by linarith)

/-- Helper: results with at most one effective path carry no second
moment. -/
theorem m2Of_degenerate (r : PricingResult) (h : r.effPaths ≤ 1) : m2Of r = 0 := by
  rcases Nat.le_one_iff_eq_zero_or_eq_one.mp h with h0 | h1
  · simp [m2Of, h0]
  · simp [m2Of, h1]

/-- Helper: the recovered second moment of a merged result is the exact
pooled second moment. -/
theorem m2Of_merge (z : ℝ) (a b : PricingResult) :
    m2Of (merge z a b) = m2Of a + m2Of b +
      (b.estimate - a.estimate) ^ 2 * (a.effPaths : ℝ) * (b.effPaths : ℝ)
        / ((a.effPaths + b.effPaths : ℕ) : ℝ) := by
  rw [merge]
  refine m2Of_resultFrom z _ _ _ ?_ ?_
  · refine add_nonneg (add_nonneg (m2Of_nonneg a) (m2Of_nonneg b)) ?_
    positivity
  · intro h
    have ha : m2Of a = 0 := m2Of_degenerate a (by omega)
    have hb : m2Of b = 0 := m2Of_degenerate b (by omega)
    have hz : a.effPaths = 0 ∨ b.effPaths = 0 := by omega
    rcases hz with hz | hz <;> simp [ha, hb, hz]

/-- Helper: structure components of a merged result. -/
theorem merge_effPaths (z : ℝ) (a b : PricingResult) :
    (merge z a b).effPaths = a.effPaths + b.effPaths := rfl

/-- Helper: the merged point estimate is the count-weighted mean. -/
theorem merge_estimate (z : ℝ) (a b : PricingResult) :
    (merge z a b).estimate =
      ((a.effPaths : ℝ) * a.estimate + (b.effPaths : ℝ) * b.estimate)
        / ((a.effPaths + b.effPaths : ℕ) : ℝ) := rfl

/-- Helper: a count times the mean over that count reconstructs the sum
whenever a zero count forces a zero sum. -/
theorem weighted_unmean (n : ℕ) (x : ℝ) (hx : n = 0 → x = 0) :
    (n : ℝ) * (x / (n : ℝ)) = x := by
  by_cases h : n = 0
  · simp [h, hx h]
  · have hne : ((n : ℝ)) ≠ 0 := Nat.cast_ne_zero.mpr h
    rw [mul_comm, div_mul_cancel₀ _ hne]

end MCLab

namespace MCLab

/-- Helper: merge written as an assembled result. -/
theorem merge_def (z : ℝ) (a b : PricingResult) :
    merge z a b = resultFrom z (a.effPaths + b.effPaths)
      (((a.effPaths : ℝ) * a.estimate + (b.effPaths : ℝ) * b.estimate)
        / ((a.effPaths + b.effPaths : ℕ) : ℝ))
      (m2Of a + m2Of b + (b.estimate - a.estimate) ^ 2 * (a.effPaths : ℝ)
        * (b.effPaths : ℝ) / ((a.effPaths + b.effPaths : ℕ) : ℝ)) := rfl

/-- C8: ResultAggregator.merge is commutative and associative: merging
any pair or triple of batch results in any order yields the same pooled
result — the count-weighted mean, the pooled standard error, the
confidence bounds and the effective count all agree — so batch
completion order does not affect the mathematical result.  The model
computes in exact real arithmetic, where the identities hold exactly
(floating-point rounding has no counterpart here). -/
theorem merge_comm_assoc (z : ℝ) (a b c : PricingResult) :
    merge z a b = merge z b a ∧
    merge z (merge z a b) c = merge z a (merge z b c) := by
  constructor
  · rw [merge_def z a b, merge_def z b a]
    apply resultFrom_congr
    · omega
    · rw [Nat.add_comm b.effPaths a.effPaths]
      ring
    · rw [Nat.add_comm b.effPaths a.effPaths]
      ring
  · rw [merge_def z (merge z a b) c, merge_def z a (merge z b c),
      m2Of_merge, m2Of_merge, merge_effPaths, merge_effPaths,
      merge_estimate, merge_estimate]
    have hx1 : a.effPaths + b.effPaths = 0 →
        (a.effPaths : ℝ) * a.estimate + (b.effPaths : ℝ) * b.estimate = 0 := by
      intro h
      have hna : a.effPaths = 0 := by omega
      have hnb : b.effPaths = 0 := by omega
      simp [hna, hnb]
    have hx2 : b.effPaths + c.effPaths = 0 →
        (b.effPaths : ℝ) * b.estimate + (c.effPaths : ℝ) * c.estimate = 0 := by
      intro h
      have hnb : b.effPaths = 0 := by omega
      have hnc : c.effPaths = 0 := by omega
      simp [hnb, hnc]
    apply resultFrom_congr
    · omega
    · rw [weighted_unmean (a.effPaths + b.effPaths) _ hx1,
        weighted_unmean (b.effPaths + c.effPaths) _ hx2]
      push_cast
      ring
    · by_cases hab : a.effPaths + b.effPaths = 0
      · have hna : a.effPaths = 0 := by omega
        have hnb : b.effPaths = 0 := by omega
        have hMa : m2Of a = 0 := m2Of_degenerate a (by omega)
        have hMb : m2Of b = 0 := m2Of_degenerate b (by omega)
        rw [hMa, hMb, hna, hnb]
        simp
      · by_cases hbc : b.effPaths + c.effPaths = 0
        · have hnb : b.effPaths = 0 := by omega
          have hnc : c.effPaths = 0 := by omega
          have hMb : m2Of b = 0 := m2Of_degenerate b (by omega)
          have hMc : m2Of c = 0 := m2Of_degenerate c (by omega)
          rw [hMb, hMc, hnb, hnc]
          simp
        · have h1 : ((a.effPaths : ℝ) + (b.effPaths : ℝ)) ≠ 0 := by
            have : ((a.effPaths + b.effPaths : ℕ) : ℝ) ≠ 0 := Nat.cast_ne_zero.mpr hab
            push_cast at this
            exact this
          have h2 : ((b.effPaths : ℝ) + (c.effPaths : ℝ)) ≠ 0 := by
            have : ((b.effPaths + c.effPaths : ℕ) : ℝ) ≠ 0 := Nat.cast_ne_zero.mpr hbc
            push_cast at this
            exact this
          have h3 : ((a.effPaths : ℝ) + (b.effPaths : ℝ) + (c.effPaths : ℝ)) ≠ 0 := by
            have hn : a.effPaths + b.effPaths + c.effPaths ≠ 0 := by omega
            have : ((a.effPaths + b.effPaths + c.effPaths : ℕ) : ℝ) ≠ 0 :=
              Nat.cast_ne_zero.mpr hn
            push_cast at this
            exact this
          push_cast
          field_simp
          ring

end MCLab

namespace MCLab

/-- Helper: the effective count of an assembled result. -/
theorem resultFrom_effPaths (z : ℝ) (n : ℕ) (e m : ℝ) :
    (resultFrom z n e m).effPaths = n := rfl

/-- Helper: the point estimate of an assembled result. -/
theorem resultFrom_estimate (z : ℝ) (n : ℕ) (e m : ℝ) :
    (resultFrom z n e m).estimate = e := rfl

/-- Helper: a set result written as an assembled result. -/
theorem resultOverSet_def (z : ℝ) (f : ℕ → ℝ) (s : Finset ℕ) :
    resultOverSet z f s = resultFrom z s.card ((∑ i ∈ s, f i) / (s.card : ℝ))
      ((∑ i ∈ s, f i ^ 2) - (∑ i ∈ s, f i) ^ 2 / (s.card : ℝ)) := rfl

/-- Helper: the centered second moment of raw statistics is
nonnegative (discrete Cauchy-Schwarz). -/
theorem statsM2_nonneg (f : ℕ → ℝ) (s : Finset ℕ) :
    0 ≤ (∑ i ∈ s, f i ^ 2) - (∑ i ∈ s, f i) ^ 2 / (s.card : ℝ) := by
  rcases Nat.eq_zero_or_pos s.card with h | h
  · rw [Finset.card_eq_zero.mp h]
    simp
  · have hcs : (∑ i ∈ s, f i) ^ 2 ≤ (s.card : ℝ) * ∑ i ∈ s, f i ^ 2 :=
      sq_sum_le_card_mul_sum_sq
    have hc : (0 : ℝ) < (s.card : ℝ) := by exact_mod_cast h
    rw [sub_nonneg, div_le_iff hc]
    linarith [hcs]

/-- Helper: singleton or empty samples have no centered second moment. -/
theorem statsM2_degenerate (f : ℕ → ℝ) (s : Finset ℕ) (h : s.card ≤ 1) :
    (∑ i ∈ s, f i ^ 2) - (∑ i ∈ s, f i) ^ 2 / (s.card : ℝ) = 0 := by
  rcases Nat.le_one_iff_eq_zero_or_eq_one.mp h with h0 | h1
  · rw [Finset.card_eq_zero.mp h0]
    simp
  · obtain ⟨x, rfl⟩ := Finset.card_eq_one.mp h1
    simp

/-- Helper: the recovered second moment of a set result. -/
theorem m2Of_resultOverSet (z : ℝ) (f : ℕ → ℝ) (s : Finset ℕ) :
    m2Of (resultOverSet z f s)
      = (∑ i ∈ s, f i ^ 2) - (∑ i ∈ s, f i) ^ 2 / (s.card : ℝ) := by
  rw [resultOverSet_def]
  exact m2Of_resultFrom z _ _ _ (statsM2_nonneg f s) (statsM2_degenerate f s)

/-- Helper: merging the results of two disjoint observation sets gives
the result of their union — ResultAggregator.merge loses nothing. -/
theorem resultOverSet_union (z : ℝ) (f : ℕ → ℝ) (s t : Finset ℕ)
    (hd : Disjoint s t) :
    merge z (resultOverSet z f s) (resultOverSet z f t)
      = resultOverSet z f (s ∪ t) := by
  have hcard : (s ∪ t).card = s.card + t.card := Finset.card_union_of_disjoint hd
  have hxs : s.card = 0 → (∑ i ∈ s, f i) = 0 := by
    intro h
    rw [Finset.card_eq_zero.mp h]
    simp
  have hxt : t.card = 0 → (∑ i ∈ t, f i) = 0 := by
    intro h
    rw [Finset.card_eq_zero.mp h]
    simp
  rw [resultOverSet_def z f s, resultOverSet_def z f t, merge_def,
    resultFrom_effPaths, resultFrom_effPaths, resultFrom_estimate,
    resultFrom_estimate, ← resultOverSet_def z f s, ← resultOverSet_def z f t,
    m2Of_resultOverSet, m2Of_resultOverSet, resultOverSet_def z f (s ∪ t)]
  apply resultFrom_congr
  · omega
  · rw [weighted_unmean s.card _ hxs, weighted_unmean t.card _ hxt,
      Finset.sum_union hd, hcard]
  · rw [Finset.sum_union hd, Finset.sum_union hd, hcard]
    by_cases hs : s.card = 0
    · obtain rfl : s = ∅ := Finset.card_eq_zero.mp hs
      simp
    · by_cases ht : t.card = 0
      · obtain rfl : t = ∅ := Finset.card_eq_zero.mp ht
        simp
      · have hsr : ((s.card : ℝ)) ≠ 0 := Nat.cast_ne_zero.mpr hs
        have htr : ((t.card : ℝ)) ≠ 0 := Nat.cast_ne_zero.mpr ht
        have hstr : ((s.card + t.card : ℕ) : ℝ) ≠ 0 := by
          have : s.card + t.card ≠ 0 := by omega
          exact Nat.cast_ne_zero.mpr this
        push_cast at hstr ⊢
        field_simp
        ring

end MCLab

namespace MCLab

/-- Helper: folding merge over results of pairwise-disjoint observation
sets accumulates the result of the union. -/
theorem foldl_merge_sets (z : ℝ) (f : ℕ → ℝ) :
    ∀ (B : List (Finset ℕ)) (acc : Finset ℕ),
      (∀ u ∈ B, Disjoint acc u) → List.Pairwise Disjoint B →
      (B.map (resultOverSet z f)).foldl (merge z) (resultOverSet z f acc)
        = resultOverSet z f (B.foldl (fun x y => x ∪ y) acc)
  | [], _, _, _ => rfl
  | u :: rest, acc, hd, hp => by
    obtain ⟨hpu, hprest⟩ := List.pairwise_cons.mp hp
    simp only [List.map_cons, List.foldl_cons]
    rw [resultOverSet_union z f acc u (hd u (by simp))]
    exact foldl_merge_sets z f rest (acc ∪ u)
      (fun v hv => Finset.disjoint_union_left.mpr
        ⟨hd v (by simp [hv]), hpu v hv⟩)
      hprest

/-- Helper: membership in a left fold of unions. -/
theorem mem_foldl_union (g : ℕ → Finset ℕ) :
    ∀ (L : List ℕ) (acc : Finset ℕ) (x : ℕ),
      (x ∈ L.foldl (fun u w => u ∪ g w) acc ↔ x ∈ acc ∨ ∃ w ∈ L, x ∈ g w)
  | [], acc, x => by simp
  | w :: rest, acc, x => by
    simp only [List.foldl_cons, mem_foldl_union g rest (acc ∪ g w) x,
      Finset.mem_union, List.mem_cons]
    constructor
    · rintro (⟨h | h⟩ | ⟨v, hv, hx⟩)
      · exact Or.inl h
      · exact Or.inr ⟨w, Or.inl rfl, h⟩
      · exact Or.inr ⟨v, Or.inr hv, hx⟩
    · rintro (h | ⟨v, hv | hv, hx⟩)
      · exact Or.inl (Or.inl h)
      · exact Or.inl (Or.inr (hv ▸ hx))
      · exact Or.inr ⟨v, hv, hx⟩

/-- Helper: the worker observation sets of W workers partition the
whole observation range. -/
theorem workerSet_cover (N W : ℕ) (hW : 0 < W) :
    (List.range W).foldl (fun u w => u ∪ workerSet N W w) ∅ = Finset.range N := by
  ext x
  rw [mem_foldl_union (workerSet N W) (List.range W) ∅ x]
  simp only [Finset.not_mem_empty, false_or, List.mem_range, workerSet,
    Finset.mem_filter, Finset.mem_range]
  constructor
  · rintro ⟨w, _, hx, _⟩
    exact hx
  · intro hx
    exact ⟨x % W, Nat.mod_lt x hW, hx, by simp⟩

/-- Helper: distinct workers own disjoint observation sets. -/
theorem workerSet_disjoint (N W : ℕ) {w1 w2 : ℕ} (h : w1 ≠ w2) :
    Disjoint (workerSet N W w1) (workerSet N W w2) := by
  rw [Finset.disjoint_left]
  intro x hx1 hx2
  rw [workerSet, Finset.mem_filter] at hx1 hx2
  have e1 : x % W = w1 := by simpa using hx1.2
  have e2 : x % W = w2 := by simpa using hx2.2
  exact h (e1 ▸ e2)

/-- Helper: the worker list of any positive worker count merges to the
global result over all observations. -/
theorem priceParallel_eq_global (z : ℝ) (m : StochasticModel)
    (cfg : SimulationConfig) (spec : PayoffSpec) (W : ℕ) (hW : 0 < W) :
    priceParallel z m cfg spec W = (generate m cfg).map (fun _ =>
      resultOverSet z (obsCF m cfg spec) (Finset.range (obsCount cfg))) := by
  rw [priceParallel]
  have hstart : resultFrom z 0 0 0 = resultOverSet z (obsCF m cfg spec) ∅ := by
    rw [resultOverSet_def]
    apply resultFrom_congr z rfl <;> simp
  have hpair : List.Pairwise Disjoint
      ((List.range W).map (workerSet (obsCount cfg) W)) := by
    rw [List.pairwise_map]
    have hne : List.Pairwise (fun a b : ℕ => a ≠ b) (List.range W) :=
      List.nodup_range W
    exact hne.imp (fun hab => workerSet_disjoint (obsCount cfg) W hab)
  have hmap : (List.range W).map (fun w =>
      resultOverSet z (obsCF m cfg spec) (workerSet (obsCount cfg) W w))
      = ((List.range W).map (workerSet (obsCount cfg) W)).map
        (resultOverSet z (obsCF m cfg spec)) := by
    rw [List.map_map]
    rfl
  rw [mergeAll, hmap, hstart,
    foldl_merge_sets z (obsCF m cfg spec)
      ((List.range W).map (workerSet (obsCount cfg) W)) ∅
      (fun u _ => Finset.disjoint_empty_left u) hpair]
  rw [List.foldl_map, workerSet_cover (obsCount cfg) W hW]

/-- C3: generation is deterministic — it is a pure function of the model
and configuration, so identical inputs reproduce the identical PathSet —
and the pipeline result is identical across repeated runs and across
worker-count changes: any two positive worker counts produce the same
PricingResult. -/
theorem deterministic_reproducible (z : ℝ) (m : StochasticModel)
    (cfg : SimulationConfig) (spec : PayoffSpec) (W1 W2 : ℕ)
    (h1 : 0 < W1) (h2 : 0 < W2) :
    (∀ m2 cfg2, m2 = m → cfg2 = cfg → generate m2 cfg2 = generate m cfg) ∧
    priceParallel z m cfg spec W1 = priceParallel z m cfg spec W2 := by
  refine ⟨fun m2 cfg2 hm hc => by rw [hm, hc], ?_⟩
  rw [priceParallel_eq_global z m cfg spec W1 h1,
    priceParallel_eq_global z m cfg spec W2 h2]

/-- Witness for C3 at concrete worker counts 1 and 3. -/
theorem deterministic_reproducible_witness :
    0 < 1 ∧ 0 < 3 ∧
    priceParallel 0 (StochasticModel.single (.gbm gbmW)) cfgW
        (PayoffSpec.european 100 .call) 1
      = priceParallel 0 (StochasticModel.single (.gbm gbmW)) cfgW
        (PayoffSpec.european 100 .call) 3 :=
  ⟨by decide, by decide,
    (deterministic_reproducible 0 (StochasticModel.single (.gbm gbmW)) cfgW
      (PayoffSpec.european 100 .call) 1 3 (by decide) (by decide)).2⟩

end MCLab

namespace MCLab

/-- Helper: backward induction on an empty cash vector stays empty. -/
theorem lsmBackward_nil {α : Type} [LinearOrderedField α]
    (fit : List (α × α) → α → α) (d : α) (ex : α → α) :
    ∀ cols : List (List α), lsmBackward fit d ex cols [] = []
  | [] => rfl
  | c :: cs => by
    simp only [lsmBackward, lsmBackward_nil fit d ex cs, lsmStep]
    simp

/-- Helper: backward induction preserves the path count. -/
theorem lsmBackward_length {α : Type} [LinearOrderedField α]
    (fit : List (α × α) → α → α) (d : α) (ex : α → α) :
    ∀ (cols : List (List α)) (cash : List α),
      (∀ c ∈ cols, c.length = cash.length) →
      (lsmBackward fit d ex cols cash).length = cash.length
  | [], _, _ => rfl
  | c :: cs, cash, h => by
    simp only [lsmBackward, lsmStep, List.length_map, List.length_zip]
    rw [lsmBackward_length fit d ex cs cash (fun u hu => h u (by simp [hu])),
      h c (by simp)]
    omega

/-- Helper: when every exercise decision takes at least the discounted
carried cash flow, backward induction dominates pure discounting,
pathwise. -/
theorem lsmBackward_getD_ge {α : Type} [LinearOrderedField α]
    (fit : List (α × α) → α → α) (d : α) (ex : α → α) (hd : 0 ≤ d) :
    ∀ (cols : List (List α)) (cash : List α),
      (∀ c ∈ cols, c.length = cash.length) →
      (∀ c ∈ cols, ∀ (cash2 : List α) (i : ℕ), i < c.length →
        0 < ex (c.getD i 0) →
        continuationOf fit d ex c cash2 (c.getD i 0) < ex (c.getD i 0) →
        d * cash2.getD i 0 ≤ ex (c.getD i 0)) →
      ∀ i, i < cash.length →
        d ^ cols.length * cash.getD i 0 ≤ (lsmBackward fit d ex cols cash).getD i 0
  | [], cash, _, _, i, _ => by
    simp [lsmBackward]
  | c :: cs, cash, hlen, hmono, i, hi => by
    have hlc : c.length = cash.length := hlen c (by simp)
    have hrecLen : (lsmBackward fit d ex cs cash).length = cash.length :=
      lsmBackward_length fit d ex cs cash (fun u hu => hlen u (by simp [hu]))
    have hic : i < c.length := by omega
    have hreceq : (lsmBackward fit d ex cs cash).length = c.length := by omega
    have hih : d ^ cs.length * cash.getD i 0
        ≤ (lsmBackward fit d ex cs cash).getD i 0 :=
      lsmBackward_getD_ge fit d ex hd cs cash
        (fun u hu => hlen u (by simp [hu]))
        (fun u hu => hmono u (by simp [hu])) i hi
    have hbase : d ^ (c :: cs).length * cash.getD i 0
        ≤ d * (lsmBackward fit d ex cs cash).getD i 0 := by
      calc d ^ (c :: cs).length * cash.getD i 0
          = d * (d ^ cs.length * cash.getD i 0) := by
            simp [List.length_cons, pow_succ]
            ring
        _ ≤ d * (lsmBackward fit d ex cs cash).getD i 0 :=
            mul_le_mul_of_nonneg_left hih hd
    simp only [lsmBackward]
    rw [lsmStep_getD fit d ex c (lsmBackward fit d ex cs cash) hreceq i hic]
    by_cases hex : 0 < ex (c.getD i 0) ∧
        continuationOf fit d ex c (lsmBackward fit d ex cs cash) (c.getD i 0)
          < ex (c.getD i 0)
    · rw [if_pos hex]
      exact le_trans hbase
        (hmono c (by simp) (lsmBackward fit d ex cs cash) i hic hex.1 hex.2)
    · rw [if_neg hex]
      exact hbase

/-- Helper: pointwise domination of equal-length lists gives sum
domination. -/
theorem sum_le_sum_getD {α : Type} [LinearOrderedField α] :
    ∀ (xs ys : List α), xs.length = ys.length →
      (∀ i, i < ys.length → xs.getD i 0 ≤ ys.getD i 0) → xs.sum ≤ ys.sum
  | [], [], _, _ => le_refl _
  | [], y :: ys, h, _ => by simp at h
  | x :: xs, [], h, _ => by simp at h
  | x :: xs, y :: ys, h, hp => by
    simp only [List.sum_cons]
    have h0 := hp 0 (by simp)
    simp only [List.getD_cons_zero] at h0
    have ht := sum_le_sum_getD xs ys (by simpa using h) (fun i hi => by
      have := hp (i + 1) (by simpa using hi)
      simpa using this)
    exact add_le_add h0 ht

end MCLab

namespace MCLab

/-- C10 (amended): the American estimate dominates the European estimate
on the same paths, the same per-step discount factor d ≥ 0 and the same
payoff, provided every exercise decision is value-monotone — whenever a
path exercises (it is in the money and its immediate payoff exceeds the
fitted continuation value), the immediate payoff is at least the path's
own discounted carried cash flow.  Without that proviso the claim fails
(see the counterexample, where the low-in-the-money-count fallback
forces a value-destroying exercise). -/
theorem american_ge_european_of_beneficial {α : Type} [LinearOrderedField α]
    (fit : List (α × α) → α → α) (d : α) (ex : α → α)
    (cols : List (List α)) (colT : List α)
    (hd : 0 ≤ d)
    (hlen : ∀ c ∈ cols, c.length = colT.length)
    (hmono : ∀ c ∈ cols, ∀ (cash2 : List α) (i : ℕ), i < c.length →
      0 < ex (c.getD i 0) →
      continuationOf fit d ex c cash2 (c.getD i 0) < ex (c.getD i 0) →
      d * cash2.getD i 0 ≤ ex (c.getD i 0)) :
    europeanEstimate d ex cols colT ≤ americanEstimate fit d ex cols colT := by
  by_cases hL : colT.length = 0
  · obtain rfl : colT = [] := List.length_eq_zero.mp hL
    rw [americanEstimate, europeanEstimate, americanCashflows]
    simp [lsmBackward_nil, listMean]
  · have hlen2 : ∀ c ∈ cols, c.length = (colT.map ex).length := by
      intro c hc
      rw [List.length_map]
      exact hlen c hc
    have hfinLen : (lsmBackward fit d ex cols (colT.map ex)).length
        = (colT.map ex).length :=
      lsmBackward_length fit d ex cols (colT.map ex) hlen2
    have hsum : d ^ cols.length * (colT.map ex).sum
        ≤ (lsmBackward fit d ex cols (colT.map ex)).sum := by
      have hsum2 : ((colT.map ex).map (fun x => d ^ cols.length * x)).sum
          ≤ (lsmBackward fit d ex cols (colT.map ex)).sum := by
        apply sum_le_sum_getD
        · rw [List.length_map, hfinLen]
        · intro i hi
          rw [hfinLen] at hi
          have hmap : ((colT.map ex).map (fun x => d ^ cols.length * x)).getD i 0
              = d ^ cols.length * (colT.map ex).getD i 0 := by
            rw [List.getD_eq_getElem _ _ (by rw [List.length_map]; exact hi),
              List.getElem_map, List.getD_eq_getElem _ _ hi]
          rw [hmap]
          exact lsmBackward_getD_ge fit d ex hd cols (colT.map ex) hlen2 hmono i hi
      calc d ^ cols.length * (colT.map ex).sum
          = ((colT.map ex).map (fun x => d ^ cols.length * x)).sum := by
            have h := List.sum_map_mul_left (colT.map ex) (fun x : α => x)
              (d ^ cols.length)
            rw [List.map_id'] at h
            exact h.symm
        _ ≤ (lsmBackward fit d ex cols (colT.map ex)).sum := hsum2
    have hLpos : (0 : α) < (((colT.map ex).length : ℕ) : α) := by
      rw [List.length_map]
      exact_mod_cast Nat.pos_of_ne_zero hL
    rw [americanEstimate, europeanEstimate, americanCashflows, listMean, listMean,
      hfinLen]
    calc d ^ (cols.length + 1) * ((colT.map ex).sum / (((colT.map ex).length : ℕ) : α))
        = d * ((d ^ cols.length * (colT.map ex).sum)
            / (((colT.map ex).length : ℕ) : α)) := by
          ring
      _ ≤ d * ((lsmBackward fit d ex cols (colT.map ex)).sum
            / (((colT.map ex).length : ℕ) : α)) :=
          mul_le_mul_of_nonneg_left ((div_le_div_right hLpos).mpr hsum) hd

/-- Witness for the amended C10 at concrete rational data with no
intermediate steps. -/
theorem american_ge_european_of_beneficial_witness :
    (0 : ℚ) ≤ 1 ∧
    europeanEstimate 1 (exercisePayoff (10 : ℚ) .put) [] [(7 : ℚ)]
      ≤ americanEstimate (fun _ _ => (0 : ℚ)) 1 (exercisePayoff (10 : ℚ) .put)
        [] [(7 : ℚ)] :=
  ⟨by decide,
    american_ge_european_of_beneficial (fun _ _ => (0 : ℚ)) 1
      (exercisePayoff (10 : ℚ) .put) [] [(7 : ℚ)] (by decide)
      (by simp) (by simp)⟩

end MCLab

namespace MCLab

/-- Helper: bounds of the affine rescaling of a residue mod 2001. -/
theorem scale_bounds (x : ℤ) (h0 : 0 ≤ x) (h1 : x < 2001) :
    -3 ≤ (((x : ℚ) - 1000) * 3) / 1000 ∧ (((x : ℚ) - 1000) * 3) / 1000 ≤ 3 := by
  have hq0 : (0 : ℚ) ≤ (x : ℚ) := by exact_mod_cast h0
  have hq1 : (x : ℚ) ≤ 2000 := by exact_mod_cast (by omega : x ≤ 2000)
  constructor
  · rw [le_div_iff (by norm_num : (0 : ℚ) < 1000)]
    linarith
  · rw [div_le_iff (by norm_num : (0 : ℚ) < 1000)]
    linarith

/-- Helper: the modelled normal draw lies in [-3, 3]. -/
theorem normalDraw_bounds (seed path step asset : ℕ) :
    -3 ≤ normalDraw seed path step asset ∧ normalDraw seed path step asset ≤ 3 := by
  rw [normalDraw]
  exact scale_bounds _ (Int.emod_nonneg _ (by norm_num)) (Int.emod_lt_of_pos _ (by norm_num))

/-- Helper: one backward step on a single in-the-money path forces
exercise at the immediate payoff (the fallback case). -/
theorem lsmStep_singleton {α : Type} [LinearOrderedField α]
    (fit : List (α × α) → α → α) (d : α) (ex : α → α) (s c0 : α)
    (h : 0 < ex s) :
    lsmStep fit d ex [s] [c0] = [ex s] := by
  simp [lsmStep, continuationOf, basisSize, h]

/-- Helper: the point estimate of an aggregated raw sample. -/
theorem resultOfStats_estimate (z : ℝ) (n : ℕ) (s q : ℝ) :
    (resultOfStats z n s q).estimate = s / (n : ℝ) := rfl

/-- Helper: the counterexample inputs pass validation. -/
theorem okC :
    (modelOk (StochasticModel.single (.gbm gbmC)) && configOk cfgC) = true := by
  norm_num [modelOk, singleModelOk, configOk, dtQ, gbmC, cfgC]

/-- Helper: generation at the counterexample inputs. -/
theorem generateC :
    generate (StochasticModel.single (.gbm gbmC)) cfgC = Except.ok psC := by
  rw [generate, if_pos okC]
  rfl

/-- Helper: step size of the counterexample configuration. -/
theorem dtQC : dtQ cfgC = 4 := by norm_num [dtQ, cfgC]

/-- Helper: real step size of the counterexample configuration. -/
theorem dtRC : dtR cfgC = 4 := by
  rw [dtR, dtQC]
  norm_num

/-- Helper: the square-rooted step size is rational here. -/
theorem sqrtDtC : sqrtDt cfgC = 2 := by
  rw [sqrtDt, dtRC, show (4 : ℝ) = 2 ^ 2 by norm_num,
    Real.sqrt_sq (by norm_num : (0 : ℝ) ≤ 2)]

/-- Helper: per-step discount factor of the counterexample model. -/
theorem stepDiscC :
    stepDisc (StochasticModel.single (.gbm gbmC)) cfgC = Real.exp 40 := by
  rw [stepDisc, dtRC]
  norm_num [driftOf, singleDrift, gbmC]

/-- Helper: the first counterexample log price. -/
theorem logPriceC1 :
    logPrice (SingleAssetModel.gbm gbmC) cfgC 0 1 = -42 + 2 * z1C := by
  have h1 : logPrice (SingleAssetModel.gbm gbmC) cfgC 0 1
      = Real.log ((s0Of (SingleAssetModel.gbm gbmC) : ℚ) : ℝ)
        + logIncrement (SingleAssetModel.gbm gbmC) cfgC 0 0
          ((drivingZ cfgC 0 0 0 : ℚ) : ℝ) := rfl
  have hz : drivingZ cfgC 0 0 0 = normalDraw 0 0 0 0 := rfl
  rw [h1, hz]
  simp only [logIncrement, s0Of, gbmC, z1C]
  rw [dtRC, sqrtDtC]
  push_cast
  rw [Real.log_one]
  ring

/-- Helper: the second counterexample log price. -/
theorem logPriceC2 :
    logPrice (SingleAssetModel.gbm gbmC) cfgC 0 2
      = (-42 + 2 * z1C) + (-42 + 2 * z2C) := by
  have h2 : logPrice (SingleAssetModel.gbm gbmC) cfgC 0 2
      = logPrice (SingleAssetModel.gbm gbmC) cfgC 0 1
        + logIncrement (SingleAssetModel.gbm gbmC) cfgC 0 1
          ((drivingZ cfgC 0 1 0 : ℚ) : ℝ) := rfl
  have hz : drivingZ cfgC 0 1 0 = normalDraw 0 0 1 0 := rfl
  rw [h2, hz, logPriceC1]
  simp only [logIncrement, gbmC, z2C]
  rw [dtRC, sqrtDtC]
  push_cast
  ring

/-- Helper: bounds of the first draw. -/
theorem z1C_bounds : -3 ≤ z1C ∧ z1C ≤ 3 := by
  have h := normalDraw_bounds 0 0 0 0
  constructor
  · simp only [z1C]
    exact_mod_cast h.1
  · simp only [z1C]
    exact_mod_cast h.2

/-- Helper: bounds of the second draw. -/
theorem z2C_bounds : -3 ≤ z2C ∧ z2C ≤ 3 := by
  have h := normalDraw_bounds 0 0 1 0
  constructor
  · simp only [z2C]
    exact_mod_cast h.1
  · simp only [z2C]
    exact_mod_cast h.2

/-- Helper: the step-one price is positive. -/
theorem s1C_pos : 0 < s1C := Real.exp_pos _

/-- Helper: the step-one price is below the strike. -/
theorem s1C_lt_one : s1C < 1 := by
  simp only [s1C]
  exact Real.exp_lt_one_iff.mpr (by linarith [z1C_bounds.2])

/-- Helper: the terminal price is at most one half. -/
theorem s2C_le_half : s2C ≤ 1 / 2 := by
  have hle : (-42 + 2 * z1C) + (-42 + 2 * z2C) ≤ -1 := by
    linarith [z1C_bounds.2, z2C_bounds.2]
  have h1 : s2C ≤ Real.exp (-1) := by
    simp only [s2C]
    exact Real.exp_le_exp.mpr hle
  have h2 : Real.exp (-1) < 1 / 2 := by
    rw [Real.exp_neg, ← one_div, div_lt_div_iff (Real.exp_pos 1) (by norm_num : (0 : ℝ) < 2)]
    linarith [Real.exp_one_gt_d9]
  linarith

/-- Helper: put payoff at the step-one price. -/
theorem exPutS1 : exercisePayoff ((1 : ℚ) : ℝ) OptionKind.put s1C = 1 - s1C := by
  simp only [exercisePayoff]
  rw [show ((1 : ℚ) : ℝ) = 1 by norm_num]
  exact max_eq_left (by linarith [s1C_lt_one])

/-- Helper: put payoff at the terminal price. -/
theorem exPutS2 : exercisePayoff ((1 : ℚ) : ℝ) OptionKind.put s2C = 1 - s2C := by
  simp only [exercisePayoff]
  rw [show ((1 : ℚ) : ℝ) = 1 by norm_num]
  exact max_eq_left (by linarith [s2C_le_half])

/-- Helper: the single path is in the money at step one. -/
theorem exPutS1_pos : 0 < exercisePayoff ((1 : ℚ) : ℝ) OptionKind.put s1C := by
  rw [exPutS1]
  linarith [s1C_lt_one]

/-- Helper: inner price columns of the counterexample path set. -/
theorem innerColsC : innerCols psC 2 = [[s1C]] := by
  have h : innerCols psC 2
      = [[Real.exp (logPrice (SingleAssetModel.gbm gbmC) cfgC 0 1)]] := rfl
  rw [h, logPriceC1]
  simp only [s1C]

/-- Helper: terminal price column of the counterexample path set. -/
theorem termColC : termCol psC 2 = [s2C] := by
  have h : termCol psC 2
      = [Real.exp (logPrice (SingleAssetModel.gbm gbmC) cfgC 0 2)] := rfl
  rw [h, logPriceC2]
  simp only [s2C]

/-- Helper: the estimator forces exercise on the counterexample path. -/
theorem cashC :
    americanCashflows fitC (stepDisc (StochasticModel.single (.gbm gbmC)) cfgC)
      (exercisePayoff ((1 : ℚ) : ℝ) OptionKind.put) (innerCols psC 2) (termCol psC 2)
      = [1 - s1C] := by
  rw [innerColsC, termColC, americanCashflows]
  have hred : lsmBackward fitC (stepDisc (StochasticModel.single (.gbm gbmC)) cfgC)
      (exercisePayoff ((1 : ℚ) : ℝ) OptionKind.put) [[s1C]]
      ([s2C].map (exercisePayoff ((1 : ℚ) : ℝ) OptionKind.put))
      = lsmStep fitC (stepDisc (StochasticModel.single (.gbm gbmC)) cfgC)
        (exercisePayoff ((1 : ℚ) : ℝ) OptionKind.put) [s1C]
        [exercisePayoff ((1 : ℚ) : ℝ) OptionKind.put s2C] := rfl
  rw [hred, lsmStep_singleton _ _ _ _ _ exPutS1_pos, exPutS1]

/-- Helper: the American pipeline estimate at the counterexample. -/
theorem estAmC :
    estimateOf (priceAmerican 0 fitC (StochasticModel.single (.gbm gbmC)) cfgC 1 .put)
      = Real.exp 40 * (1 - s1C) := by
  rw [priceAmerican, generateC]
  simp only [Except.map, estimateOf]
  rw [resultOfStats_estimate, show nStepsOf cfgC = 2 from rfl, cashC]
  rw [show ([1 - s1C].map
      (fun c => stepDisc (StochasticModel.single (.gbm gbmC)) cfgC * c))
      = [stepDisc (StochasticModel.single (.gbm gbmC)) cfgC * (1 - s1C)] from rfl]
  rw [stepDiscC]
  simp

/-- Helper: the European pipeline estimate at the counterexample. -/
theorem estEuC :
    estimateOf (priceEuropean 0 (StochasticModel.single (.gbm gbmC)) cfgC 1 .put)
      = Real.exp 40 ^ 2 * (1 - s2C) := by
  rw [priceEuropean, generateC]
  simp only [Except.map, estimateOf]
  rw [resultOfStats_estimate]
  have hev : psC.paths.map (fun p =>
      evaluate (stepDisc (StochasticModel.single (.gbm gbmC)) cfgC
        ^ nStepsOf cfgC) p (PayoffSpec.european 1 .put))
      = [stepDisc (StochasticModel.single (.gbm gbmC)) cfgC ^ 2
          * exercisePayoff ((1 : ℚ) : ℝ) OptionKind.put
            (Real.exp (logPrice (SingleAssetModel.gbm gbmC) cfgC 0 2))] := rfl
  rw [hev, logPriceC2, show Real.exp ((-42 + 2 * z1C) + (-42 + 2 * z2C)) = s2C from rfl,
    exPutS2, stepDiscC]
  simp

/-- Helper: the American pipeline succeeds at the counterexample. -/
theorem okAmC :
    isOkResult (priceAmerican 0 fitC (StochasticModel.single (.gbm gbmC)) cfgC 1 .put)
      = true := by
  rw [priceAmerican, generateC]
  rfl

/-- Helper: the European pipeline succeeds at the counterexample. -/
theorem okEuC :
    isOkResult (priceEuropean 0 (StochasticModel.single (.gbm gbmC)) cfgC 1 .put)
      = true := by
  rw [priceEuropean, generateC]
  rfl

/-- C10 counterexample: at a concrete model, configuration and strike —
GBM with S0 = 1, drift −10, volatility 1; one path, two steps, horizon
8, seed 0, no variance reduction; strike 1, put — both pipelines
succeed with identical parameters and seed, yet the American price
estimate is strictly below the European one: the forced-exercise
fallback (one in-the-money path, fewer than the four basis terms) locks
in the small early payoff while the European value keeps the large
discounted terminal payoff.  This holds for the placeholder fit, and the
fit is never consulted at this input, so no least-squares choice
rescues the claim. -/
theorem american_below_european :
    isOkResult (priceAmerican 0 fitC (StochasticModel.single (.gbm gbmC)) cfgC 1 .put)
      = true ∧
    isOkResult (priceEuropean 0 (StochasticModel.single (.gbm gbmC)) cfgC 1 .put)
      = true ∧
    estimateOf (priceAmerican 0 fitC (StochasticModel.single (.gbm gbmC)) cfgC 1 .put)
      < estimateOf (priceEuropean 0 (StochasticModel.single (.gbm gbmC)) cfgC 1 .put) := by
  refine ⟨okAmC, okEuC, ?_⟩
  rw [estAmC, estEuC]
  have h1 := s1C_pos
  have h2 := s1C_lt_one
  have h3 := s2C_le_half
  have he : (2 : ℝ) < Real.exp 40 := by linarith [Real.add_one_le_exp (40 : ℝ)]
  have hep : (0 : ℝ) < Real.exp 40 := Real.exp_pos 40
  nlinarith [mul_pos hep h1, mul_pos hep (sub_pos.mpr he),
    mul_nonneg (mul_nonneg hep.le hep.le) (by linarith : (0 : ℝ) ≤ 1 / 2 - s2C)]

end MCLab
